import Mathlib

/-!
# The k-queens search of `src/src/App.jsx`

A shallow embedding of `isSafe` and `solveKQueens` (with its inner `backtrack`), followed
by the properties of the search: soundness of the safety predicate, validity, length and
scan order of every returned placement, the cap on the number of results, exhaustiveness,
the prefix property of the cap, and the boundary cases `k = 0`, `k = 1` and `k > n`.

Modelling conventions.
* Board coordinates are JavaScript numbers holding integers; they are modelled by `Int`
  (the differences `pr - r` are signed).  `n`, `k` and `limit` are non-negative integers
  and are modelled by `Nat`.
* JavaScript subtracts in IEEE 754 binary64.  `isSafeIEEE` is `isSafe` with that
  subtraction (`jsSub`, rounding to nearest, ties to even, overflow to infinity); it is what
  the function computes on arbitrary integer arguments.  `isSafe` is the same function with
  the subtraction taken exactly; the two agree as soon as every difference is at most
  `2 ^ 53` in absolute value (`isSafeIEEE_eq_isSafe`), in particular on every call the
  search makes on a board of side at most `2 ^ 53` (`isSafeIEEE_eq_isSafe_of_onBoard`).
  The search is stated with `isSafe`.
* The two mutable arrays `solutions` and `placements` closed over by `backtrack` are the
  two fields of `State`, threaded explicitly through every call.
* The `for` loop of `backtrack` is the function `scan`.  It is indexed by the number
  `left = n * n - pos` of cells still to be visited, so that the recursion is structural and
  every call returns; `scan_at_pos` and `scan_at_end` restate it in terms of `pos`.
-/

namespace NQueens

/-! ## Definitions -/

/-- A board position `[row, col]`. -/
abbrev Position := Int × Int

/-- A sequence of positions, in the order in which the queens were placed. -/
abbrev Placement := List Position

/-- JavaScript `Math.abs` on integers. -/
def Math.abs (x : Int) : Int := if x < 0 then -x else x

/-- Source `isSafe(placements, r, c)` with the two subtractions taken exactly: walk
`placements` from the front and return `false` at the first queen sharing the row, the
column or a diagonal with `(r, c)`.  This is what the source computes whenever the
differences are exactly representable, see `isSafeIEEE` for the general case. -/
def isSafe : Placement → Int → Int → Bool
  | [], _, _ => true
  | (pr, pc) :: rest, r, c =>
    if pr = r ∨ pc = c then false
    else if Math.abs (pr - r) = Math.abs (pc - c) then false
    else isSafe rest r c

/-- The value of a JavaScript number computed from integers: a finite integer, or one of
the two infinities produced by overflow. -/
inductive JsNumber where
  /-- A finite number holding the integer `v`. -/
  | finite (v : Int)
  /-- The number `Infinity`. -/
  | posInf
  /-- The number `-Infinity`. -/
  | negInf
deriving DecidableEq, Repr

/-- Search for the spacing of the binary64 numbers around the magnitude `m`: starting from
`u`, double until `m < 2 ^ 53 * u`. -/
def ulpFrom : Nat → Nat → Nat → Nat
  | 0, _, u => u
  | fuel + 1, m, u => if m < 2 ^ 53 * u then u else ulpFrom fuel m (2 * u)

/-- Spacing of the binary64 numbers around a magnitude `m` above `2 ^ 53`: the power of two
`u` with `2 ^ 52 * u ≤ m < 2 ^ 53 * u` (see `ulp_spec`). -/
def ulp (m : Nat) : Nat := ulpFrom m m 1

/-- The first magnitude that overflows binary64, `2 ^ 1024`. -/
def overflowBound : Nat := 2 ^ 256 * 2 ^ 256 * 2 ^ 256 * 2 ^ 256

/-- Rounding of an exact integer to the nearest IEEE 754 binary64 number, ties to even:
integers of magnitude at most `2 ^ 53` are kept, larger ones are rounded to a multiple of
the spacing `ulp`, and a rounded magnitude of `2 ^ 1024` or more overflows to an
infinity. -/
def roundToDouble (x : Int) : JsNumber :=
  let m := x.natAbs
  if m ≤ 2 ^ 53 then JsNumber.finite x
  else
    let u := ulp m
    let q := m / u
    let rem := m % u
    let up : Bool :=
      if 2 * rem < u then false else if u < 2 * rem then true else decide (q % 2 = 1)
    let mag := if up then (q + 1) * u else q * u
    if overflowBound ≤ mag then (if x < 0 then JsNumber.negInf else JsNumber.posInf)
    else JsNumber.finite (if x < 0 then -(mag : Int) else (mag : Int))

/-- JavaScript `a - b` on numbers holding the integers `a` and `b`: the exact difference,
rounded to binary64. -/
def jsSub (a b : Int) : JsNumber := roundToDouble (a - b)

/-- JavaScript `Math.abs` on a number. -/
def JsNumber.abs : JsNumber → JsNumber
  | JsNumber.finite v => JsNumber.finite (Math.abs v)
  | JsNumber.posInf => JsNumber.posInf
  | JsNumber.negInf => JsNumber.posInf

/-- Source `isSafe(placements, r, c)` on JavaScript numbers holding integers: the rows and
columns are compared with `===`, the differences `pr - r` and `pc - c` are computed in
binary64 and their absolute values compared with `===`. -/
def isSafeIEEE : Placement → Int → Int → Bool
  | [], _, _ => true
  | (pr, pc) :: rest, r, c =>
    if pr = r ∨ pc = c then false
    else if (jsSub pr r).abs = (jsSub pc c).abs then false
    else isSafeIEEE rest r c

/-- The variables `solutions` and `placements` of `solveKQueens`. -/
structure State where
  /-- Snapshots of the completed placements, in discovery order. -/
  solutions : List Placement
  /-- The partial placement under construction (a stack: push at the end, pop at the end). -/
  placements : Placement
deriving DecidableEq, Repr

/-- Body of `backtrack`: the cap check, the snapshot of a completed placement, and otherwise
the `for` loop, passed as `loop`. -/
def backtrackBody (k limit : Nat) (loop : State → State) (st : State) : State :=
  if st.solutions.length ≥ limit then st
  else if st.placements.length = k then
    { st with solutions := st.solutions ++ [st.placements] }
  else loop st

/-- The loop `for (let pos = startIdx; pos < n * n; pos++)` of `backtrack`, with
`left = n * n - pos` cells still to visit.  The recursive call `backtrack(pos + 1)` is
`backtrackBody` followed by the scan of the `left - 1` cells after `pos`. -/
def scan (n k limit : Nat) : Nat → State → State
  | 0, st => st
  | left + 1, st =>
    let pos := n * n - (left + 1)
    let r : Int := ((pos / n : Nat) : Int)
    let c : Int := ((pos % n : Nat) : Int)
    if isSafe st.placements r c then
      let st1 := { st with placements := st.placements ++ [(r, c)] }
      let st2 := backtrackBody k limit (scan n k limit left) st1
      let st3 := { st2 with placements := st2.placements.dropLast }
      if st3.solutions.length ≥ limit then st3
      else scan n k limit left st3
    else scan n k limit left st

/-- Source `backtrack(startIdx)`, as a state transformer. -/
def backtrack (n k limit : Nat) (startIdx : Nat) (st : State) : State :=
  backtrackBody k limit (scan n k limit (n * n - startIdx)) st

/-- Source `solveKQueens(n, k, limit)`. -/
def solveKQueens (n k limit : Nat) : List Placement :=
  (backtrack n k limit 0 { solutions := [], placements := [] }).solutions

/-! ### Specification vocabulary -/

/-- The position lies on the `n × n` board. -/
def onBoard (n : Nat) (q : Position) : Prop :=
  0 ≤ q.1 ∧ q.1 < (n : Int) ∧ 0 ≤ q.2 ∧ q.2 < (n : Int)

/-- Two queens attack each other: same row, same column or same diagonal. -/
def attacks (p q : Position) : Prop :=
  p.1 = q.1 ∨ p.2 = q.2 ∨ |p.1 - q.1| = |p.2 - q.2|

/-- Scan-order index `row * n + col` of a position. -/
def linearIndex (n : Nat) (q : Position) : Int := q.1 * (n : Int) + q.2

instance (n : Nat) (q : Position) : Decidable (onBoard n q) := by
  unfold onBoard; infer_instance

instance (p q : Position) : Decidable (attacks p q) := by
  unfold attacks; infer_instance

/-- The board cell with scan-order index `pos`. -/
def cell (n pos : Nat) : Position := (((pos / n : Nat) : Int), ((pos % n : Nat) : Int))

/-- A solution of the k-queens problem on the `n × n` board, listed in scan order. -/
def IsSolution (n k : Nat) (p : Placement) : Prop :=
  p.length = k ∧ (∀ q ∈ p, onBoard n q) ∧
    p.Pairwise (fun a b => ¬ attacks a b) ∧
    p.Pairwise (fun a b => linearIndex n a < linearIndex n b)

/-- The placement `p` extends `pl` to `k` queens by cells among the last `left` of the
board, taken in scan order, no new queen attacked by any other queen of `p`. -/
def IsCompletion (n k left : Nat) (pl p : Placement) : Prop :=
  ∃ ext : Placement, p = pl ++ ext ∧ p.length = k ∧
    (∀ q ∈ ext, onBoard n q ∧ ((n * n - left : Nat) : Int) ≤ linearIndex n q) ∧
    ext.Pairwise (fun a b => linearIndex n a < linearIndex n b) ∧
    ext.Pairwise (fun a b => ¬ attacks a b) ∧
    ∀ a ∈ pl, ∀ b ∈ ext, ¬ attacks a b

/-- What the loop would collect from `pl` over the last `left` cells if there were no cap:
the uncapped, stateless counterpart of `scan`. -/
def scanCompletions (n k : Nat) : Nat → Placement → List Placement
  | 0, _ => []
  | left + 1, pl =>
    let q := cell n (n * n - (left + 1))
    let ext := pl ++ [q]
    (if isSafe pl q.1 q.2 then
      (if ext.length = k then [ext] else scanCompletions n k left ext)
     else []) ++ scanCompletions n k left pl

/-- The uncapped, stateless counterpart of `backtrack`. -/
def completions (n k left : Nat) (pl : Placement) : List Placement :=
  if pl.length = k then [pl] else scanCompletions n k left pl

/-- The scan with dead branches cut: a branch is dropped as soon as the rows still to be
scanned are fewer than the queens still to be placed.  Used only to evaluate the search on
the 8 × 8 board. -/
def prunedScan (n k : Nat) : Nat → Placement → List Placement
  | 0, _ => []
  | left + 1, pl =>
    if pl.length + (left + n) / n < k then []
    else
      let q := cell n (n * n - (left + 1))
      let ext := pl ++ [q]
      (if isSafe pl q.1 q.2 then
        (if ext.length = k then [ext] else prunedScan n k left ext)
       else []) ++ prunedScan n k left pl

/-- Specification-level enumeration, independent of the search: every selection of `k`
board cells taken in scan order, kept when its queens are pairwise non-attacking. -/
def allSolutions (n k : Nat) : List Placement :=
  (((List.range (n * n)).sublistsLen k).map (List.map (cell n))).filter
    (fun p => decide (p.Pairwise (fun a b => ¬ attacks a b)))

/-- Number of k-queens solutions on the `n × n` board. -/
def totalSolutions (n k : Nat) : Nat := (allSolutions n k).length

/-- The first solution of the eight-queens problem in scan order. -/
def firstEightQueens : Placement :=
  [(0, 0), (1, 4), (2, 7), (3, 5), (4, 2), (5, 6), (6, 1), (7, 3)]

/-- The first of the two solutions of the four-queens problem, in discovery order. -/
def fourQueensA : Placement := [(0, 1), (1, 3), (2, 0), (3, 2)]

/-- The second solution of the four-queens problem, the mirror image of `fourQueensA`. -/
def fourQueensB : Placement := [(0, 2), (1, 0), (2, 3), (3, 1)]

/-! ## The search as a capped enumeration -/

theorem scanCompletions_succ (n k left : Nat) (pl : Placement) :
    scanCompletions n k (left + 1) pl =
      (if isSafe pl (cell n (n * n - (left + 1))).1 (cell n (n * n - (left + 1))).2 then
        completions n k left (pl ++ [cell n (n * n - (left + 1))]) else [])
      ++ scanCompletions n k left pl := by
  simp [scanCompletions, completions]

theorem take_append_of_full {α : Type} (limit : Nat) (sols A B : List α)
    (h : limit ≤ (sols ++ A.take (limit - sols.length)).length) :
    (A ++ B).take (limit - sols.length) = A.take (limit - sols.length) := by
  rw [List.take_append_eq_append_take]
  have : limit - sols.length - A.length = 0 := by
    simp [List.length_append, List.length_take] at h
    omega
  simp [this]

theorem take_append_of_room {α : Type} (limit : Nat) (sols A B : List α)
    (h : ¬ limit ≤ (sols ++ A.take (limit - sols.length)).length) :
    (A ++ B).take (limit - sols.length) =
      A.take (limit - sols.length) ++
        B.take (limit - (sols ++ A.take (limit - sols.length)).length) := by
  rw [List.take_append_eq_append_take]
  simp only [List.length_append, List.length_take] at h ⊢
  have h1 : min (limit - sols.length) A.length = A.length := by omega
  congr 2
  omega

theorem backtrackBody_eq (k limit : Nat) (loop : State → State) (C D : Placement → List Placement)
    (hloop : ∀ st, loop st =
      { solutions := st.solutions ++ (C st.placements).take (limit - st.solutions.length),
        placements := st.placements })
    (hD : ∀ pl, D pl = if pl.length = k then [pl] else C pl)
    (st : State) :
    backtrackBody k limit loop st =
      { solutions := st.solutions ++ (D st.placements).take (limit - st.solutions.length),
        placements := st.placements } := by
  unfold backtrackBody
  rw [hD]
  by_cases h1 : st.solutions.length ≥ limit
  · have : limit - st.solutions.length = 0 := by omega
    simp [h1, this]
  · by_cases h2 : st.placements.length = k
    · have : limit - st.solutions.length = (limit - st.solutions.length - 1) + 1 := by omega
      rw [if_neg h1, if_pos h2, if_pos h2, this, List.take_succ_cons]
      simp
    · rw [if_neg h1, if_neg h2, if_neg h2, hloop]

theorem scan_eq (n k limit : Nat) : ∀ (left : Nat) (st : State),
    scan n k limit left st =
      { solutions := st.solutions ++
          (scanCompletions n k left st.placements).take (limit - st.solutions.length),
        placements := st.placements }
  | 0, st => by simp [scan, scanCompletions]
  | left + 1, st => by
    rw [scan, scanCompletions_succ]
    simp only [cell]
    by_cases hs : isSafe st.placements ((((n * n - (left + 1)) / n : Nat) : Int))
        ((((n * n - (left + 1)) % n : Nat) : Int)) = true
    · rw [if_pos hs, if_pos hs]
      rw [backtrackBody_eq k limit (scan n k limit left) (scanCompletions n k left)
        (completions n k left) (scan_eq n k limit left) (fun pl => rfl)]
      simp only [List.dropLast_concat]
      generalize completions n k left _ = A
      by_cases hfull : (st.solutions ++ A.take (limit - st.solutions.length)).length ≥ limit
      · rw [if_pos hfull, take_append_of_full limit _ _ _ hfull]
      · rw [if_neg hfull, scan_eq n k limit left, take_append_of_room limit _ _ _ hfull]
        simp
    · rw [if_neg hs, if_neg hs, scan_eq n k limit left st]
      simp

theorem backtrack_eq (n k limit startIdx : Nat) (st : State) :
    backtrack n k limit startIdx st =
      { solutions := st.solutions ++
          (completions n k (n * n - startIdx) st.placements).take (limit - st.solutions.length),
        placements := st.placements } :=
  backtrackBody_eq k limit _ (scanCompletions n k (n * n - startIdx)) _
    (scan_eq n k limit _) (fun _ => rfl) st

theorem solveKQueens_eq (n k limit : Nat) :
    solveKQueens n k limit = (completions n k (n * n) []).take limit := by
  simp [solveKQueens, backtrack_eq]

theorem Math.abs_eq (x : Int) : Math.abs x = |x| := by
  unfold Math.abs
  split_ifs with h
  · exact (abs_of_neg h).symm
  · exact (abs_of_nonneg (not_lt.mp h)).symm

theorem isSafe_iff (pl : Placement) (r c : Int) :
    isSafe pl r c = true ↔ ∀ q ∈ pl, ¬ attacks q (r, c) := by
  induction pl with
  | nil => simp [isSafe]
  | cons q rest ih =>
    obtain ⟨pr, pc⟩ := q
    simp only [isSafe, Math.abs_eq, List.mem_cons, forall_eq_or_imp, attacks]
    by_cases h1 : pr = r ∨ pc = c
    · rw [if_pos h1]
      simp only [Bool.false_eq_true, false_iff, not_and]
      intro h
      exact absurd (h1.elim Or.inl (fun h => Or.inr (Or.inl h))) h
    · rw [if_neg h1]
      by_cases h2 : |pr - r| = |pc - c|
      · rw [if_pos h2]
        simp only [Bool.false_eq_true, false_iff, not_and]
        intro h
        exact absurd (Or.inr (Or.inr h2)) h
      · rw [if_neg h2, ih]
        constructor
        · intro h
          refine ⟨?_, h⟩
          rintro (h | h | h)
          · exact h1 (Or.inl h)
          · exact h1 (Or.inr h)
          · exact h2 h
        · exact fun h => h.2

theorem linearIndex_cell (n pos : Nat) : linearIndex n (cell n pos) = (pos : Int) := by
  unfold linearIndex cell
  have := Nat.div_add_mod pos n
  have h2 : ((pos / n : Nat) : Int) * (n : Int) + ((pos % n : Nat) : Int)
      = ((n * (pos / n) + pos % n : Nat) : Int) := by
    push_cast; ring
  simp only [h2, this]

theorem cell_onBoard (n pos : Nat) (h : pos < n * n) : onBoard n (cell n pos) := by
  have hn : 0 < n := by
    rcases Nat.eq_zero_or_pos n with h0 | h0
    · subst h0; simp at h
    · exact h0
  unfold onBoard cell
  refine ⟨by positivity, ?_, by positivity, ?_⟩
  · show ((pos / n : Nat) : Int) < n
    exact_mod_cast Nat.div_lt_of_lt_mul h
  · show ((pos % n : Nat) : Int) < n
    exact_mod_cast Nat.mod_lt pos hn

theorem eq_cell_of_linearIndex (n pos : Nat) (q : Position) (hq : onBoard n q)
    (h : linearIndex n q = (pos : Int)) : q = cell n pos := by
  obtain ⟨r, c⟩ := q
  obtain ⟨h1, h2, h3, h4⟩ := hq
  simp only at h1 h2 h3 h4
  unfold linearIndex at h
  simp only at h
  lift r to Nat using h1
  lift c to Nat using h3
  have h2' : r < n := by exact_mod_cast h2
  have h4' : c < n := by exact_mod_cast h4
  have h' : r * n + c = pos := by exact_mod_cast h
  subst h'
  unfold cell
  have e1 : (r * n + c) / n = r := by
    rw [Nat.mul_comm, Nat.mul_add_div (by omega), Nat.div_eq_of_lt h4', Nat.add_zero]
  have e2 : (r * n + c) % n = c := by
    rw [Nat.mul_comm, Nat.mul_add_mod, Nat.mod_eq_of_lt h4']
  rw [e1, e2]

theorem linearIndex_lt (n : Nat) (q : Position) (hq : onBoard n q) :
    linearIndex n q < ((n * n : Nat) : Int) := by
  obtain ⟨r, c⟩ := q
  obtain ⟨h1, h2, h3, h4⟩ := hq
  simp only at h1 h2 h3 h4
  unfold linearIndex
  simp only
  push_cast
  nlinarith

theorem linearIndex_nonneg (n : Nat) (q : Position) (hq : onBoard n q) :
    0 ≤ linearIndex n q := by
  obtain ⟨h1, _, h3, _⟩ := hq
  unfold linearIndex
  positivity


theorem mem_completions_of_scan (n k left : Nat) (p : Placement)
    (h : ∀ pl : Placement, pl.length ≠ k →
      (p ∈ scanCompletions n k left pl ↔ IsCompletion n k left pl p))
    (pl : Placement) : p ∈ completions n k left pl ↔ IsCompletion n k left pl p := by
  unfold completions
  by_cases hk : pl.length = k
  · rw [if_pos hk, List.mem_singleton]
    constructor
    · intro hp
      subst hp
      exact ⟨[], by simp, hk, by simp, List.Pairwise.nil, List.Pairwise.nil, by simp⟩
    · rintro ⟨ext, hp, hlen, -⟩
      subst hp
      rw [List.length_append] at hlen
      have : ext = [] := List.length_eq_zero.mp (by omega)
      simp [this]
  · rw [if_neg hk]
    exact h pl hk

theorem isCompletion_succ (n k left : Nat) (hleft : left + 1 ≤ n * n) (pl p : Placement)
    (hk : pl.length ≠ k) :
    IsCompletion n k (left + 1) pl p ↔
      ((isSafe pl (cell n (n * n - (left + 1))).1 (cell n (n * n - (left + 1))).2 = true ∧
        IsCompletion n k left (pl ++ [cell n (n * n - (left + 1))]) p) ∨
       IsCompletion n k left pl p) := by
  have hpos : ((n * n - left : Nat) : Int) = ((n * n - (left + 1) : Nat) : Int) + 1 := by
    omega
  generalize hq0 : cell n (n * n - (left + 1)) = q0
  have hidx0 : linearIndex n q0 = ((n * n - (left + 1) : Nat) : Int) := by
    rw [← hq0, linearIndex_cell]
  have hb0 : onBoard n q0 := by
    rw [← hq0]; exact cell_onBoard n _ (by omega)
  rw [isSafe_iff]
  constructor
  · rintro ⟨ext, hp, hlen, hbd, hord, hna, hcross⟩
    cases ext with
    | nil =>
      subst hp
      simp at hlen
      exact absurd hlen hk
    | cons q ext =>
      have hq := hbd q (List.mem_cons_self _ _)
      rw [List.pairwise_cons] at hord hna
      by_cases hqi : linearIndex n q = ((n * n - (left + 1) : Nat) : Int)
      · have hqq : q = q0 := by
          rw [← hq0]; exact eq_cell_of_linearIndex n _ q hq.1 hqi
        subst hqq
        left
        refine ⟨fun a ha => hcross a ha _ (List.mem_cons_self _ _), ext, by simp [hp], hlen, ?_,
          hord.2, hna.2, ?_⟩
        · intro b hb
          refine ⟨(hbd b (List.mem_cons_of_mem _ hb)).1, ?_⟩
          have := hord.1 b hb
          omega
        · intro a ha b hb
          rcases List.mem_append.mp ha with ha | ha
          · exact hcross a ha b (List.mem_cons_of_mem _ hb)
          · rw [List.mem_singleton] at ha
            subst ha
            exact hna.1 b hb
      · right
        refine ⟨q :: ext, hp, hlen, ?_, List.pairwise_cons.mpr hord, List.pairwise_cons.mpr hna,
          hcross⟩
        intro b hb
        refine ⟨(hbd b hb).1, ?_⟩
        rcases List.mem_cons.mp hb with hb | hb
        · subst hb
          have := hq.2
          omega
        · have := hord.1 b hb
          have := hq.2
          omega
  · rintro (⟨hsafe, ext, hp, hlen, hbd, hord, hna, hcross⟩ | ⟨ext, hp, hlen, hbd, hord, hna, hcross⟩)
    · refine ⟨q0 :: ext, by simp [hp], hlen, ?_, ?_, ?_, ?_⟩
      · intro b hb
        rcases List.mem_cons.mp hb with hb | hb
        · subst hb
          exact ⟨hb0, by omega⟩
        · exact ⟨(hbd b hb).1, by have := (hbd b hb).2; omega⟩
      · rw [List.pairwise_cons]
        refine ⟨fun b hb => ?_, hord⟩
        have := (hbd b hb).2
        omega
      · rw [List.pairwise_cons]
        exact ⟨fun b hb => hcross q0 (by simp) b hb, hna⟩
      · intro a ha b hb
        rcases List.mem_cons.mp hb with hb | hb
        · subst hb
          exact hsafe a ha
        · exact hcross a (List.mem_append_left _ ha) b hb
    · refine ⟨ext, hp, hlen, ?_, hord, hna, hcross⟩
      intro b hb
      exact ⟨(hbd b hb).1, by have := (hbd b hb).2; omega⟩

theorem mem_scanCompletions (n k : Nat) (p : Placement) :
    ∀ (left : Nat), left ≤ n * n → ∀ pl : Placement, pl.length ≠ k →
      (p ∈ scanCompletions n k left pl ↔ IsCompletion n k left pl p)
  | 0, _, pl, hk => by
    simp only [scanCompletions, List.not_mem_nil, false_iff]
    rintro ⟨ext, hp, hlen, hbd, -⟩
    cases ext with
    | nil =>
      subst hp
      simp at hlen
      exact hk hlen
    | cons q ext =>
      have hq := hbd q (List.mem_cons_self _ _)
      have := linearIndex_lt n q hq.1
      have := hq.2
      omega
  | left + 1, hleft, pl, hk => by
    have ih := mem_scanCompletions n k p left (by omega)
    rw [scanCompletions_succ, isCompletion_succ n k left hleft pl p hk, List.mem_append,
      ← ih pl hk, ← mem_completions_of_scan n k left p ih]
    by_cases hs : isSafe pl (cell n (n * n - (left + 1))).1 (cell n (n * n - (left + 1))).2 = true
    · simp [hs]
    · simp [hs]

theorem mem_completions (n k left : Nat) (hleft : left ≤ n * n) (pl p : Placement) :
    p ∈ completions n k left pl ↔ IsCompletion n k left pl p :=
  mem_completions_of_scan n k left p (mem_scanCompletions n k p left hleft) pl


theorem nodup_completions_of_scan (n k left : Nat)
    (h : ∀ pl : Placement, pl.length ≠ k → (scanCompletions n k left pl).Nodup)
    (pl : Placement) : (completions n k left pl).Nodup := by
  unfold completions
  by_cases hk : pl.length = k
  · rw [if_pos hk]; exact List.nodup_singleton _
  · rw [if_neg hk]; exact h pl hk

theorem nodup_scanCompletions (n k : Nat) :
    ∀ (left : Nat), left ≤ n * n → ∀ pl : Placement, pl.length ≠ k →
      (scanCompletions n k left pl).Nodup
  | 0, _, _, _ => by simp [scanCompletions]
  | left + 1, hleft, pl, hk => by
    have ih := nodup_scanCompletions n k left (by omega)
    rw [scanCompletions_succ, List.nodup_append]
    refine ⟨?_, ih pl hk, ?_⟩
    · split_ifs
      · exact nodup_completions_of_scan n k left ih _
      · exact List.nodup_nil
    · intro p hpA hpB
      split_ifs at hpA with hs
      · obtain ⟨ext, hp, -⟩ := (mem_completions n k left (by omega) _ p).mp hpA
        obtain ⟨ext2, hp2, -, hbd, -⟩ := (mem_scanCompletions n k p left (by omega) pl hk).mp hpB
        rw [hp2, List.append_assoc] at hp
        have hext := List.append_cancel_left hp
        have hmem : cell n (n * n - (left + 1)) ∈ ext2 := by rw [hext]; simp
        have h1 := (hbd _ hmem).2
        rw [linearIndex_cell] at h1
        omega
      · simp at hpA

theorem nodup_completions (n k left : Nat) (hleft : left ≤ n * n) (pl : Placement) :
    (completions n k left pl).Nodup :=
  nodup_completions_of_scan n k left (nodup_scanCompletions n k left hleft) pl

theorem isCompletion_nil (n k : Nat) (p : Placement) :
    IsCompletion n k (n * n) [] p ↔ IsSolution n k p := by
  constructor
  · rintro ⟨ext, hp, hlen, hbd, hord, hna, -⟩
    rw [List.nil_append] at hp
    subst hp
    exact ⟨hlen, fun q hq => (hbd q hq).1, hna, hord⟩
  · rintro ⟨hlen, hbd, hna, hord⟩
    refine ⟨p, by simp, hlen, fun q hq => ⟨hbd q hq, ?_⟩, hord, hna, by simp⟩
    have := linearIndex_nonneg n q (hbd q hq)
    simpa using this

theorem mem_all (n k : Nat) (p : Placement) :
    p ∈ completions n k (n * n) [] ↔ IsSolution n k p := by
  rw [mem_completions n k (n * n) (le_refl _), isCompletion_nil]

theorem isSolution_of_mem (n k limit : Nat) (p : Placement)
    (h : p ∈ solveKQueens n k limit) : IsSolution n k p := by
  rw [solveKQueens_eq] at h
  exact (mem_all n k p).mp (List.mem_of_mem_take h)


/-- Pairwise non-attacking positions whose rows lie in [lo, n) number at most n - lo. -/
theorem length_le_of_rows (n lo : Nat) (ext : Placement)
    (hb : ∀ q ∈ ext, (lo : Int) ≤ q.1 ∧ q.1 < (n : Int))
    (hna : ext.Pairwise (fun a b => ¬ attacks a b)) : ext.length ≤ n - lo := by
  have hnd : (ext.map (fun q : Position => q.1.toNat - lo)).Nodup := by
    unfold List.Nodup
    rw [List.pairwise_map]
    refine hna.imp_of_mem ?_
    intro a b ha hb' hab heq
    apply hab
    left
    have h1 := hb a ha
    have h2 := hb b hb'
    omega
  have hsub : ext.map (fun q : Position => q.1.toNat - lo) ⊆ List.range (n - lo) := by
    intro x hx
    rw [List.mem_map] at hx
    obtain ⟨q, hq, rfl⟩ := hx
    rw [List.mem_range]
    have h1 := hb q hq
    omega
  have := (List.subperm_of_subset hnd hsub).length_le
  simpa using this

theorem row_ge_of_linearIndex (n m : Nat) (q : Position) (hq : onBoard n q)
    (h : ((n * n - m * n : Nat) : Int) ≤ linearIndex n q) : ((n - m : Nat) : Int) ≤ q.1 := by
  obtain ⟨r, c⟩ := q
  obtain ⟨h1, h2, h3, h4⟩ := hq
  simp only at h1 h2 h3 h4
  unfold linearIndex at h
  simp only at h ⊢
  by_contra hcon
  push_neg at hcon
  rcases Nat.lt_or_ge m n with hmn | hmn
  · have e1 : n * n - m * n = (n - m) * n := by rw [Nat.sub_mul]
    rw [e1] at h
    have e2 : r + 1 ≤ ((n - m : Nat) : Int) := by omega
    have e3 : (r + 1) * (n : Int) ≤ ((n - m : Nat) : Int) * (n : Int) :=
      mul_le_mul_of_nonneg_right e2 (by positivity)
    push_cast at h e3
    nlinarith
  · have : n - m = 0 := by omega
    rw [this] at hcon
    omega

/-- A partial placement that needs more queens than rows remain has no completion. -/
theorem scanCompletions_dead (n k left m : Nat) (hleft : left ≤ n * n) (hm : left ≤ m * n)
    (pl : Placement) (hpl : pl.length + m < k) : scanCompletions n k left pl = [] := by
  rw [List.eq_nil_iff_forall_not_mem]
  intro p hp
  obtain ⟨ext, hpe, hlen, hbd, -, hna, -⟩ :=
    (mem_scanCompletions n k p left hleft pl (by omega)).mp hp
  have hrows : ∀ q ∈ ext, ((n - m : Nat) : Int) ≤ q.1 ∧ q.1 < (n : Int) := by
    intro q hq
    obtain ⟨hb, hi⟩ := hbd q hq
    refine ⟨row_ge_of_linearIndex n m q hb ?_, hb.2.1⟩
    have : n * n - m * n ≤ n * n - left := by omega
    have : ((n * n - m * n : Nat) : Int) ≤ ((n * n - left : Nat) : Int) := by exact_mod_cast this
    omega
  have hle := length_le_of_rows n (n - m) ext hrows hna
  subst hpe
  rw [List.length_append] at hlen
  omega

theorem prunedScan_eq (n k : Nat) : ∀ (left : Nat), left ≤ n * n → ∀ pl : Placement,
    prunedScan n k left pl = scanCompletions n k left pl
  | 0, _, _ => by simp [prunedScan, scanCompletions]
  | left + 1, hleft, pl => by
    have ih := prunedScan_eq n k left (by omega)
    have hn : 0 < n := by
      rcases Nat.eq_zero_or_pos n with h0 | h0
      · subst h0; simp at hleft
      · exact h0
    rw [prunedScan]
    by_cases hdead : pl.length + (left + n) / n < k
    · rw [if_pos hdead]
      refine (scanCompletions_dead n k (left + 1) ((left + n) / n) hleft ?_ pl hdead).symm
      have := Nat.div_add_mod (left + n) n
      have := Nat.mod_lt (left + n) hn
      rw [Nat.mul_comm]
      omega
    · rw [if_neg hdead]
      simp only [ih, scanCompletions]

theorem all_eq_pruned (n k : Nat) :
    completions n k (n * n) [] = if k = 0 then [[]] else prunedScan n k (n * n) [] := by
  unfold completions
  rw [prunedScan_eq n k (n * n) (le_refl _)]
  simp [eq_comm]


theorem sublist_range_of_sorted (N : Nat) (idxs : List Nat)
    (hs : idxs.Pairwise (fun a b => a < b)) (hb : ∀ i ∈ idxs, i < N) :
    idxs.Sublist (List.range N) := by
  have hnd : idxs.Nodup := hs.imp (fun h => Nat.ne_of_lt h)
  have hsub : idxs ⊆ List.range N := fun i hi => List.mem_range.mpr (hb i hi)
  have h1 : List.Sorted (fun a b : Nat => a ≤ b) idxs := hs.imp (fun h => Nat.le_of_lt h)
  have h2 : List.Sorted (fun a b : Nat => a ≤ b) (List.range N) :=
    (List.pairwise_lt_range N).imp (fun h => Nat.le_of_lt h)
  exact List.sublist_of_subperm_of_sorted (List.subperm_of_subset hnd hsub) h1 h2

theorem map_cell_index (n : Nat) (p : Placement) (hb : ∀ q ∈ p, onBoard n q) :
    (p.map (fun q => (linearIndex n q).toNat)).map (cell n) = p := by
  rw [List.map_map]
  conv_rhs => rw [← List.map_id p]
  apply List.map_congr_left
  intro q hq
  have h0 := linearIndex_nonneg n q (hb q hq)
  exact (eq_cell_of_linearIndex n _ q (hb q hq) (by simp [Int.toNat_of_nonneg h0])).symm

theorem mem_allSolutions (n k : Nat) (p : Placement) :
    p ∈ allSolutions n k ↔ IsSolution n k p := by
  unfold allSolutions IsSolution
  rw [List.mem_filter, List.mem_map]
  simp only [List.mem_sublistsLen, decide_eq_true_eq]
  constructor
  · rintro ⟨⟨idxs, ⟨hsub, hlen⟩, rfl⟩, hna⟩
    refine ⟨by simpa using hlen, ?_, hna, ?_⟩
    · intro q hq
      rw [List.mem_map] at hq
      obtain ⟨i, hi, rfl⟩ := hq
      exact cell_onBoard n i (List.mem_range.mp (hsub.subset hi))
    · rw [List.pairwise_map]
      refine ((List.pairwise_lt_range (n * n)).sublist hsub).imp ?_
      intro a b hab
      rw [linearIndex_cell, linearIndex_cell]
      exact_mod_cast hab
  · rintro ⟨hlen, hb, hna, hord⟩
    refine ⟨⟨p.map (fun q => (linearIndex n q).toNat), ⟨?_, by simpa using hlen⟩,
      map_cell_index n p hb⟩, hna⟩
    apply sublist_range_of_sorted
    · rw [List.pairwise_map]
      refine hord.imp_of_mem ?_
      intro a b ha hb' hab
      have h1 := linearIndex_nonneg n a (hb a ha)
      omega
    · intro i hi
      rw [List.mem_map] at hi
      obtain ⟨q, hq, rfl⟩ := hi
      have h1 := linearIndex_nonneg n q (hb q hq)
      have h2 := linearIndex_lt n q (hb q hq)
      omega

theorem nodup_allSolutions (n k : Nat) : (allSolutions n k).Nodup := by
  unfold allSolutions
  apply List.Nodup.filter
  refine List.Nodup.map_on ?_ (List.nodup_sublistsLen k (List.nodup_range _))
  intro a _ b _ hab
  have h := congrArg (List.map (linearIndex n)) hab
  simp only [List.map_map] at h
  have e : (linearIndex n ∘ cell n) = (fun i : Nat => (i : Int)) := by
    funext i; exact linearIndex_cell n i
  rw [e] at h
  exact List.map_injective_iff.mpr Nat.cast_injective h

theorem all_perm_allSolutions (n k : Nat) :
    (completions n k (n * n) []).Perm (allSolutions n k) := by
  rw [List.perm_ext_iff_of_nodup (nodup_completions n k (n * n) (le_refl _) [])
    (nodup_allSolutions n k)]
  intro p
  rw [mem_all, mem_allSolutions]

theorem length_all (n k : Nat) :
    (completions n k (n * n) []).length = totalSolutions n k :=
  (all_perm_allSolutions n k).length_eq

theorem scanCompletions_one_length (n : Nat) : ∀ left : Nat,
    (scanCompletions n 1 left []).length = left
  | 0 => by simp [scanCompletions]
  | left + 1 => by
    rw [scanCompletions_succ]
    simp [isSafe, completions, scanCompletions_one_length n left]


theorem count_all (n k : Nat) (p : Placement) (h : IsSolution n k p) :
    (completions n k (n * n) []).count p = 1 := by
  have h1 := List.count_eq_one_of_mem (nodup_completions n k (n * n) (le_refl _) [])
    ((mem_all n k p).mpr h)
  rw [← h1]
  unfold List.count
  apply List.countP_congr
  intro x _
  simp only [beq_iff_eq]

theorem length_le_of_isSolution (n k : Nat) (p : Placement) (h : IsSolution n k p) :
    k ≤ n := by
  obtain ⟨hlen, hb, hna, -⟩ := h
  have := length_le_of_rows n 0 p
    (fun q hq => ⟨by simpa using (hb q hq).1, (hb q hq).2.1⟩) hna
  omega

theorem pairwise_getElem_of_symm {α : Type} (R : α → α → Prop) (hR : ∀ a b, R a b → R b a)
    (l : List α) (h : l.Pairwise R) (i j : Nat) (hi : i < l.length) (hj : j < l.length)
    (hij : i ≠ j) : R l[i] l[j] := by
  rw [List.pairwise_iff_getElem] at h
  rcases Nat.lt_or_gt_of_ne hij with hlt | hgt
  · exact h i j hi hj hlt
  · exact hR _ _ (h j i hj hi hgt)

theorem attacks_symm (a b : Position) (h : attacks a b) : attacks b a := by
  rcases h with h | h | h
  · exact Or.inl h.symm
  · exact Or.inr (Or.inl h.symm)
  · exact Or.inr (Or.inr (by rw [abs_sub_comm b.1, abs_sub_comm b.2]; exact h))

/-! ## Binary64 subtraction in `isSafe` -/

theorem overflowBound_eq : overflowBound = 2 ^ 1024 := by
  unfold overflowBound
  rw [← pow_add, ← pow_add, ← pow_add]

theorem ulpFrom_spec : ∀ (fuel m u j : Nat), u = 2 ^ j → m < 2 ^ 53 * u * 2 ^ fuel →
    (j = 0 ∨ 2 ^ 52 * u ≤ m) →
    m < 2 ^ 53 * ulpFrom fuel m u ∧ (∃ i, ulpFrom fuel m u = 2 ^ i) ∧
      (ulpFrom fuel m u = 1 ∨ 2 ^ 52 * ulpFrom fuel m u ≤ m)
  | 0, m, u, j, hu, hfuel, hlow => by
    simp only [ulpFrom]
    refine ⟨by simpa using hfuel, ⟨j, hu⟩, ?_⟩
    rcases hlow with h | h
    · left; rw [hu, h]; rfl
    · right; exact h
  | fuel + 1, m, u, j, hu, hfuel, hlow => by
    rw [ulpFrom]
    by_cases h : m < 2 ^ 53 * u
    · rw [if_pos h]
      refine ⟨h, ⟨j, hu⟩, ?_⟩
      rcases hlow with h0 | h0
      · left; rw [hu, h0]; rfl
      · right; exact h0
    · rw [if_neg h]
      refine ulpFrom_spec fuel m (2 * u) (j + 1) (by rw [hu, pow_succ]; ring) ?_ ?_
      · calc m < 2 ^ 53 * u * 2 ^ (fuel + 1) := hfuel
          _ = 2 ^ 53 * (2 * u) * 2 ^ fuel := by rw [pow_succ]; ring
      · right
        have : 2 ^ 52 * (2 * u) = 2 ^ 53 * u := by ring
        rw [this]
        exact Nat.le_of_not_lt h

/-- Above `2 ^ 53` the spacing is the power of two `u` with `2 ^ 52 * u ≤ m < 2 ^ 53 * u`:
the magnitude has exactly 53 significant bits in units of `u`. -/
theorem ulp_spec (m : Nat) (hm : 2 ^ 53 < m) :
    (∃ i, ulp m = 2 ^ i) ∧ 2 ^ 52 * ulp m ≤ m ∧ m < 2 ^ 53 * ulp m := by
  have hfuel : m < 2 ^ 53 * 1 * 2 ^ m := by
    have h1 : m < 2 ^ m := Nat.lt_two_pow m
    have h2 : 2 ^ m ≤ 2 ^ 53 * 1 * 2 ^ m := by
      rw [Nat.mul_one]
      exact Nat.le_mul_of_pos_left _ (by positivity)
    omega
  obtain ⟨h1, h2, h3⟩ := ulpFrom_spec m m 1 0 (by simp) hfuel (Or.inl rfl)
  refine ⟨h2, ?_, h1⟩
  rcases h3 with h3 | h3
  · exfalso
    have h4 : m < 2 ^ 53 * ulp m := h1
    rw [show ulp m = 1 from h3] at h4
    omega
  · exact h3

theorem roundToDouble_of_le (x : Int) (h : x.natAbs ≤ 2 ^ 53) :
    roundToDouble x = JsNumber.finite x := by
  unfold roundToDouble
  simp only [h, if_true]

theorem abs_jsSub (a b : Int) (h : |a - b| ≤ 2 ^ 53) :
    (jsSub a b).abs = JsNumber.finite (Math.abs (a - b)) := by
  have h2 : (a - b).natAbs ≤ 2 ^ 53 := by
    have := abs_le.mp h
    omega
  rw [jsSub, roundToDouble_of_le _ h2, JsNumber.abs]

/-- Binary64 subtraction does not change `isSafe` when every difference it forms is at most
`2 ^ 53` in absolute value. -/
theorem isSafeIEEE_eq_isSafe (placements : Placement) (r c : Int)
    (hbound : ∀ q ∈ placements, |q.1 - r| ≤ 2 ^ 53 ∧ |q.2 - c| ≤ 2 ^ 53) :
    isSafeIEEE placements r c = isSafe placements r c := by
  induction placements with
  | nil => rfl
  | cons q rest ih =>
    obtain ⟨pr, pc⟩ := q
    have hq := hbound (pr, pc) (List.mem_cons_self _ _)
    have hrest := ih (fun q hq => hbound q (List.mem_cons_of_mem _ hq))
    simp only [isSafeIEEE, isSafe, abs_jsSub pr r hq.1, abs_jsSub pc c hq.2,
      JsNumber.finite.injEq, hrest]

/-- On a board of side at most `2 ^ 53` every call of `isSafe` made by the search, a placement
of board cells against a board cell, is computed exactly by the source. -/
theorem isSafeIEEE_eq_isSafe_of_onBoard (n : Nat) (hn : n ≤ 2 ^ 53) (placements : Placement)
    (r c : Int) (hpl : ∀ q ∈ placements, onBoard n q) (hrc : onBoard n (r, c)) :
    isSafeIEEE placements r c = isSafe placements r c := by
  apply isSafeIEEE_eq_isSafe
  intro q hq
  obtain ⟨h1, h2, h3, h4⟩ := hpl q hq
  obtain ⟨g1, g2, g3, g4⟩ := hrc
  simp only at g1 g2 g3 g4
  have hn2 : (n : Int) ≤ 2 ^ 53 := by exact_mod_cast hn
  constructor
  · rw [abs_le]; constructor <;> omega
  · rw [abs_le]; constructor <;> omega

/-! ## The loop in terms of the cursor `pos` -/

/-- One iteration of the source loop at cursor `pos < n * n`: the embedding of lines
23 to 32 of `App.jsx` with the recursive call written as `backtrack (pos + 1)`. -/
theorem scan_at_pos (n k limit pos : Nat) (hpos : pos < n * n) (st : State) :
    scan n k limit (n * n - pos) st =
      if isSafe st.placements ((pos / n : Nat) : Int) ((pos % n : Nat) : Int) then
        if limit ≤ (backtrack n k limit (pos + 1)
            { st with placements :=
                st.placements ++ [(((pos / n : Nat) : Int), ((pos % n : Nat) : Int))] }).solutions.length
        then
          { solutions := (backtrack n k limit (pos + 1)
              { st with placements :=
                  st.placements ++ [(((pos / n : Nat) : Int), ((pos % n : Nat) : Int))] }).solutions,
            placements := (backtrack n k limit (pos + 1)
              { st with placements :=
                  st.placements ++ [(((pos / n : Nat) : Int), ((pos % n : Nat) : Int))] }).placements.dropLast }
        else
          scan n k limit (n * n - (pos + 1))
            { solutions := (backtrack n k limit (pos + 1)
                { st with placements :=
                    st.placements ++ [(((pos / n : Nat) : Int), ((pos % n : Nat) : Int))] }).solutions,
              placements := (backtrack n k limit (pos + 1)
                { st with placements :=
                    st.placements ++ [(((pos / n : Nat) : Int), ((pos % n : Nat) : Int))] }).placements.dropLast }
      else scan n k limit (n * n - (pos + 1)) st := by
  obtain ⟨left, hleft⟩ : ∃ left, n * n - pos = left + 1 := ⟨n * n - pos - 1, by omega⟩
  have h1 : n * n - (pos + 1) = left := by omega
  have h2 : n * n - (left + 1) = pos := by omega
  rw [hleft, scan, h2]
  simp only [backtrack, h1, ge_iff_le]

/-- The loop exits without touching the state once the cursor has reached `n * n`. -/
theorem scan_at_end (n k limit pos : Nat) (hpos : n * n ≤ pos) (st : State) :
    scan n k limit (n * n - pos) st = st := by
  rw [Nat.sub_eq_zero_of_le hpos, scan]

/-! ## The claims -/

/-- C1 (amended): whenever every difference `pr - r` and `pc - c` between a placed position
and the candidate is at most `2 ^ 53` in absolute value, so that binary64 subtraction is exact,
the source `isSafe placements r c` is true exactly when no position of `placements` has the
row `r`, the column `c`, or a diagonal in common with `(r, c)`; on the empty placement it is
true for every candidate. -/
theorem isSafeIEEE_iff_no_attack (placements : Placement) (r c : Int)
    (hbound : ∀ q ∈ placements, |q.1 - r| ≤ 2 ^ 53 ∧ |q.2 - c| ≤ 2 ^ 53) :
    (isSafeIEEE placements r c = true ↔
      ¬ ∃ q ∈ placements, q.1 = r ∨ q.2 = c ∨ |q.1 - r| = |q.2 - c|) ∧
    isSafeIEEE [] r c = true := by
  refine ⟨?_, rfl⟩
  rw [isSafeIEEE_eq_isSafe placements r c hbound, isSafe_iff]
  simp only [attacks, not_exists, not_and]

/-- C2: every placement returned by `solveKQueens n k limit` (with `limit ≥ 1`) lies on the
`n × n` board and no two of its queens, at distinct places of the sequence, share a row, a
column or a diagonal. -/
theorem solveKQueens_valid (n k limit : Nat) (_hlimit : 1 ≤ limit) (p : Placement)
    (hp : p ∈ solveKQueens n k limit) :
    (∀ q ∈ p, 0 ≤ q.1 ∧ q.1 < (n : Int) ∧ 0 ≤ q.2 ∧ q.2 < (n : Int)) ∧
    ∀ (i j : Nat) (hi : i < p.length) (hj : j < p.length), i ≠ j →
      p[i].1 ≠ p[j].1 ∧ p[i].2 ≠ p[j].2 ∧ |p[i].1 - p[j].1| ≠ |p[i].2 - p[j].2| := by
  obtain ⟨-, hb, hna, -⟩ := isSolution_of_mem n k limit p hp
  refine ⟨hb, fun i j hi hj hij => ?_⟩
  have h := pairwise_getElem_of_symm (fun a b => ¬ attacks a b)
    (fun a b hab hba => hab (attacks_symm b a hba)) p hna i j hi hj hij
  unfold attacks at h
  push_neg at h
  exact h

/-- C3: every placement returned by `solveKQueens n k limit` (with `limit ≥ 1`) has
exactly `k` positions. -/
theorem solveKQueens_length_eq_k (n k limit : Nat) (_hlimit : 1 ≤ limit) (p : Placement)
    (hp : p ∈ solveKQueens n k limit) : p.length = k :=
  (isSolution_of_mem n k limit p hp).1

/-- C4: `solveKQueens n k limit` (with `limit ≥ 1`) returns at most `limit` placements. -/
theorem solveKQueens_length_le_limit (n k limit : Nat) (_hlimit : 1 ≤ limit) :
    (solveKQueens n k limit).length ≤ limit := by
  rw [solveKQueens_eq, List.length_take]
  exact Nat.min_le_left _ _

/-- C5: when `solveKQueens n k limit` (with `limit ≥ 1`) returns fewer than `limit`
placements, every sequence of `k` board positions that is pairwise non-attacking and listed
in strictly increasing scan-order index occurs exactly once in the result. -/
theorem solveKQueens_exhaustive (n k limit : Nat) (_hlimit : 1 ≤ limit)
    (hroom : (solveKQueens n k limit).length < limit)
    (p : Placement) (hlen : p.length = k) (hboard : ∀ q ∈ p, onBoard n q)
    (hsafe : p.Pairwise (fun a b => ¬ attacks a b))
    (hord : p.Pairwise (fun a b => linearIndex n a < linearIndex n b)) :
    (solveKQueens n k limit).count p = 1 := by
  rw [solveKQueens_eq] at hroom ⊢
  rw [List.length_take] at hroom
  rw [List.take_of_length_le (by omega)]
  exact count_all n k p ⟨hlen, hboard, hsafe, hord⟩

/-- C6: for `1 ≤ limit ≤ limit2`, the result of `solveKQueens n k limit` is the first
`limit` entries (all of them, if fewer) of `solveKQueens n k limit2`, and its length is the
minimum of `limit` and the total number of solutions. -/
theorem solveKQueens_prefix (n k limit limit2 : Nat) (_hlimit : 1 ≤ limit)
    (hle : limit ≤ limit2) :
    solveKQueens n k limit = (solveKQueens n k limit2).take limit ∧
    (solveKQueens n k limit).length = min limit (totalSolutions n k) := by
  simp only [solveKQueens_eq, List.take_take, List.length_take, length_all,
    Nat.min_eq_left hle, and_self]

/-- C7: for `n ≥ 1` and `limit ≥ 1`, `solveKQueens n 1 limit` returns `min limit (n * n)`
placements, each a single position, and when `limit ≥ n * n` every cell of the board occurs
as a singleton placement exactly once. -/
theorem solveKQueens_one_queen (n limit : Nat) (_hn : 1 ≤ n) (_hlimit : 1 ≤ limit) :
    (solveKQueens n 1 limit).length = min limit (n * n) ∧
    (∀ p ∈ solveKQueens n 1 limit, ∃ q, p = [q]) ∧
    (n * n ≤ limit → ∀ r c : Int, 0 ≤ r → r < (n : Int) → 0 ≤ c → c < (n : Int) →
      (solveKQueens n 1 limit).count [(r, c)] = 1) := by
  have hall : (completions n 1 (n * n) []).length = n * n := by
    simp [completions, scanCompletions_one_length]
  refine ⟨?_, ?_, ?_⟩
  · rw [solveKQueens_eq, List.length_take, hall]
  · intro p hp
    exact List.length_eq_one.mp (isSolution_of_mem n 1 limit p hp).1
  · intro hbig r c hr0 hr hc0 hc
    rw [solveKQueens_eq, List.take_of_length_le (by omega)]
    apply count_all
    refine ⟨rfl, ?_, List.pairwise_singleton _ _, List.pairwise_singleton _ _⟩
    intro q hq
    rw [List.mem_singleton] at hq
    subst hq
    exact ⟨hr0, hr, hc0, hc⟩

/-- C8: for `limit ≥ 1`, `solveKQueens n k limit` returns the empty sequence whenever
`k > n` (this covers `n = 0` with `k > 0`), and in particular whenever `k > n * n`. -/
theorem solveKQueens_too_many_queens (n k limit : Nat) (_hlimit : 1 ≤ limit) :
    (n < k → solveKQueens n k limit = []) ∧ (n * n < k → solveKQueens n k limit = []) := by
  have key : n < k → solveKQueens n k limit = [] := by
    intro hk
    rw [List.eq_nil_iff_forall_not_mem]
    intro p hp
    have := length_le_of_isSolution n k p (isSolution_of_mem n k limit p hp)
    omega
  refine ⟨key, fun hk => key ?_⟩
  have : n ≤ n * n := Nat.le_mul_self n
  omega

/-- C9: in every placement returned by `solveKQueens n k limit` (with `limit ≥ 1`) the
scan-order indices `row * n + col` increase strictly along the sequence. -/
theorem solveKQueens_scan_order (n k limit : Nat) (_hlimit : 1 ≤ limit) (p : Placement)
    (hp : p ∈ solveKQueens n k limit) :
    ∀ (i j : Nat) (hi : i < p.length) (hj : j < p.length), i < j →
      p[i].1 * (n : Int) + p[i].2 < p[j].1 * (n : Int) + p[j].2 := by
  obtain ⟨-, -, -, hord⟩ := isSolution_of_mem n k limit p hp
  rw [List.pairwise_iff_getElem] at hord
  exact hord

/-- C10: for every `n` (zero included) and `limit ≥ 1`, `solveKQueens n 0 limit` returns
exactly one solution, the empty placement. -/
theorem solveKQueens_zero_queens (n limit : Nat) (hlimit : 1 ≤ limit) :
    solveKQueens n 0 limit = [[]] := by
  have h : ¬ limit ≤ 0 := by omega
  simp [solveKQueens, backtrack, backtrackBody, h]


/-! ## Concrete instances -/

theorem solveKQueens_four : solveKQueens 4 4 1000 = [fourQueensA, fourQueensB] := by
  decide

theorem prunedScan_eight_first : (prunedScan 8 8 64 []).take 1 = [firstEightQueens] := by
  decide!

theorem prunedScan_eight_length : (prunedScan 8 8 64 []).length = 92 := by
  decide!

theorem solveKQueens_eight_one : solveKQueens 8 8 1 = [firstEightQueens] := by
  rw [solveKQueens_eq, all_eq_pruned, if_neg (by decide)]
  exact prunedScan_eight_first

theorem totalSolutions_eight : totalSolutions 8 8 = 92 := by
  rw [← length_all, all_eq_pruned, if_neg (by decide)]
  exact prunedScan_eight_length

theorem solveKQueens_valid_witness :
    solveKQueens 8 8 1 = [firstEightQueens] ∧
    ((∀ q ∈ firstEightQueens,
        0 ≤ q.1 ∧ q.1 < ((8 : Nat) : Int) ∧ 0 ≤ q.2 ∧ q.2 < ((8 : Nat) : Int)) ∧
      ∀ (i j : Nat) (hi : i < firstEightQueens.length) (hj : j < firstEightQueens.length),
        i ≠ j →
          firstEightQueens[i].1 ≠ firstEightQueens[j].1 ∧
          firstEightQueens[i].2 ≠ firstEightQueens[j].2 ∧
          |firstEightQueens[i].1 - firstEightQueens[j].1| ≠
            |firstEightQueens[i].2 - firstEightQueens[j].2|) :=
  ⟨solveKQueens_eight_one,
    solveKQueens_valid 8 8 1 (by decide) firstEightQueens
      (by rw [solveKQueens_eight_one]; exact List.mem_singleton_self _)⟩

theorem solveKQueens_length_eq_k_witness :
    fourQueensA ∈ solveKQueens 4 4 1000 ∧ fourQueensA.length = 4 :=
  ⟨by rw [solveKQueens_four]; exact List.mem_cons_self _ _,
    solveKQueens_length_eq_k 4 4 1000 (by decide) fourQueensA
      (by rw [solveKQueens_four]; exact List.mem_cons_self _ _)⟩

theorem solveKQueens_length_le_limit_witness :
    1 ≤ 5 ∧ (solveKQueens 8 8 5).length ≤ 5 :=
  ⟨by decide, solveKQueens_length_le_limit 8 8 5 (by decide)⟩

theorem solveKQueens_exhaustive_witness :
    solveKQueens 4 4 1000 = [fourQueensA, fourQueensB] ∧
    fourQueensA.toFinset ≠ fourQueensB.toFinset ∧
    (solveKQueens 4 4 1000).count fourQueensA = 1 ∧
    (solveKQueens 4 4 1000).count fourQueensB = 1 :=
  ⟨solveKQueens_four, by decide,
    solveKQueens_exhaustive 4 4 1000 (by decide) (by rw [solveKQueens_four]; decide)
      fourQueensA (by decide) (by decide) (by decide) (by decide),
    solveKQueens_exhaustive 4 4 1000 (by decide) (by rw [solveKQueens_four]; decide)
      fourQueensB (by decide) (by decide) (by decide) (by decide)⟩

theorem solveKQueens_prefix_witness :
    (solveKQueens 8 8 5).length = 5 ∧
    (solveKQueens 8 8 1000).length = 92 ∧
    totalSolutions 8 8 = 92 ∧
    solveKQueens 8 8 5 = (solveKQueens 8 8 1000).take 5 := by
  have h5 := solveKQueens_prefix 8 8 5 1000 (by decide) (by decide)
  have h1000 := solveKQueens_prefix 8 8 1000 1000 (by decide) (by decide)
  rw [totalSolutions_eight] at h5 h1000
  exact ⟨h5.2, h1000.2, totalSolutions_eight, h5.1⟩

theorem solveKQueens_one_queen_witness :
    (solveKQueens 3 1 20).length = 9 ∧
    (solveKQueens 3 1 4).length = 4 ∧
    (solveKQueens 3 1 20).count [(1, 2)] = 1 :=
  ⟨(solveKQueens_one_queen 3 20 (by decide) (by decide)).1,
    (solveKQueens_one_queen 3 4 (by decide) (by decide)).1,
    (solveKQueens_one_queen 3 20 (by decide) (by decide)).2.2 (by decide) 1 2
      (by decide) (by decide) (by decide) (by decide)⟩

theorem solveKQueens_too_many_queens_witness :
    solveKQueens 2 3 1000 = [] ∧ solveKQueens 0 1 1000 = [] ∧ solveKQueens 3 10 1 = [] :=
  ⟨(solveKQueens_too_many_queens 2 3 1000 (by decide)).1 (by decide),
    (solveKQueens_too_many_queens 0 1 1000 (by decide)).1 (by decide),
    (solveKQueens_too_many_queens 3 10 1 (by decide)).2 (by decide)⟩

theorem solveKQueens_scan_order_witness :
    fourQueensB ∈ solveKQueens 4 4 1000 ∧
    ∀ (i j : Nat) (hi : i < fourQueensB.length) (hj : j < fourQueensB.length), i < j →
      fourQueensB[i].1 * ((4 : Nat) : Int) + fourQueensB[i].2 <
        fourQueensB[j].1 * ((4 : Nat) : Int) + fourQueensB[j].2 :=
  ⟨by rw [solveKQueens_four]; decide,
    solveKQueens_scan_order 4 4 1000 (by decide) fourQueensB
      (by rw [solveKQueens_four]; decide)⟩

theorem solveKQueens_zero_queens_witness :
    solveKQueens 0 0 1 = [[]] ∧ solveKQueens 8 0 5000 = [[]] :=
  ⟨solveKQueens_zero_queens 0 1 (by decide), solveKQueens_zero_queens 8 5000 (by decide)⟩

/-- C1 as first stated fails: the queen and the candidate below are safe integers, no
attack holds between them, and yet the source answers `false`, because
`9007199254740991 - (-2) = 2 ^ 53 + 1` rounds to `2 ^ 53 = 9007199254740991 - (-1)`. -/
theorem isSafeIEEE_counterexample :
    isSafeIEEE [(9007199254740991, 9007199254740991)] (-2) (-1) = false ∧
    (¬ ∃ q ∈ ([(9007199254740991, 9007199254740991)] : Placement),
        q.1 = -2 ∨ q.2 = -1 ∨ |q.1 - (-2)| = |q.2 - (-1)|) ∧
    jsSub 9007199254740991 (-2) = JsNumber.finite 9007199254740992 ∧
    jsSub 9007199254740991 (-1) = JsNumber.finite 9007199254740992 ∧
    roundToDouble 9007199254740991 = JsNumber.finite 9007199254740991 ∧
    roundToDouble (-2) = JsNumber.finite (-2) ∧
    roundToDouble (-1) = JsNumber.finite (-1) :=
  ⟨by decide, by decide, by decide, by decide, by decide, by decide, by decide⟩

theorem isSafeIEEE_iff_no_attack_witness :
    (∀ q ∈ ([(0, 0), (1, 4)] : Placement), |q.1 - 2| ≤ 2 ^ 53 ∧ |q.2 - 7| ≤ 2 ^ 53) ∧
    isSafeIEEE [(0, 0), (1, 4)] 2 7 = true ∧
    (¬ ∃ q ∈ ([(0, 0), (1, 4)] : Placement), q.1 = 2 ∨ q.2 = 7 ∨ |q.1 - 2| = |q.2 - 7|) ∧
    isSafeIEEE [(0, 0), (1, 4)] 2 5 = false ∧
    isSafeIEEE [] 2 7 = true :=
  ⟨by decide, by decide,
    (isSafeIEEE_iff_no_attack [(0, 0), (1, 4)] 2 7 (by decide)).1.mp (by decide),
    by decide, (isSafeIEEE_iff_no_attack [(0, 0), (1, 4)] 2 7 (by decide)).2⟩

end NQueens
